import Mathlib

/-!
Verification of the megalovania renderer (`src/main.rs`).

Shallow embedding conventions:
* `f64` arithmetic is modelled exactly: times, instruction lengths and the
  cursor state of a `Track` live in `ℚ` (every value the sequencer compares
  is rational), while signal values live in `ℝ` (frequencies involve
  `2 ^ (1/12)` and the generators may involve `sin`).
* The waveform generator selected by the `sin_wave` cargo feature
  (`note_gen`, line 225-231 of the source) is abstracted as a parameter
  `g : ℝ → ℝ`; the sequencing and buffer-filling layers are proved for every
  generator, which covers both build configurations.
* Rust's `%` on floats (remainder of truncating division) is `rust_mod_one`;
  `as u16` / `as i16` casts (truncate toward zero, saturating) are
  `cast_u16` / `cast_i16`.
* A Rust `panic!` is modelled by `Option`: `sawtooth` returns `none` on the
  `panic!("invalid input")` branch, and `fill_buffer` returns `none` when the
  `assert!(buffer.len() % channel_count == 0)` fails.
* The `u64` sample counter is modelled by `ℕ`: the spec requires that the
  counter never wraps in a session, and a debug build would abort on
  overflow, so modular wrap-around is not part of the intended semantics.
-/

namespace Megalo

/-- Source constant `const A4: f64 = 440.0;` (main.rs line 136). -/
noncomputable def A4 : ℝ := 440

/-- Source constant `const TAU: f64 = 2.0 * PI;` (line 137). -/
noncomputable def TAU : ℝ := 2 * Real.pi

/-- Source constant `const BPM: f64 = 120.0;` (line 138).  Only ever used in rational
positions, so it is embedded in `ℚ`. -/
def BPM : ℚ := 120

/-- Source constant `const VOLUME: f64 = 0.1;` (line 101). -/
noncomputable def VOLUME : ℝ := 0.1

/-- Source function `pitch_compute` (lines 256-258):
`A4 * 2.0f64.powf(1.0 / 12.0).powi(pitch)`
(lines 256-258). -/
noncomputable def pitch_compute (pitch : ℤ) : ℝ :=
  A4 * ((2 : ℝ) ^ ((1 : ℝ) / 12)) ^ pitch

/-- Source function `fn envelope(x: f64) -> f64` (lines 260-274). -/
noncomputable def envelope (x : ℝ) : ℝ :=
  if x < 0 ∨ 1 < x then 0
  else if x < 0.1 then x * 10
  else if 0.9 < x then (1 - x) * 10
  else 1

/-- Source function `sin_wave` (lines 234-236): `(x * TAU).sin()`. -/
noncomputable def sin_wave (x : ℝ) : ℝ := Real.sin (x * TAU)

/-- Truncation toward zero: the rounding used by Rust's float `%` operator. -/
noncomputable def rust_trunc (x : ℝ) : ℤ := if 0 ≤ x then ⌊x⌋ else ⌈x⌉

/-- Rust statement `x %= 1.0` on an `f64`: remainder of truncating division by `1.0`,
which keeps the sign of the dividend. -/
noncomputable def rust_mod_one (x : ℝ) : ℝ := x - rust_trunc x

/-- Source function `fn sawtooth(mut x: f64) -> f64` (lines 238-254).  The three guarded
returns are the `some` branches; `none` is the `panic!("invalid input")`. -/
noncomputable def sawtooth (x : ℝ) : Option ℝ :=
  if 0 ≤ rust_mod_one x ∧ rust_mod_one x < 1 / 4 then
    some (rust_mod_one x * 4)
  else if 1 / 4 ≤ rust_mod_one x ∧ rust_mod_one x < 3 / 4 then
    some (2 - rust_mod_one x * 4)
  else if 3 / 4 ≤ rust_mod_one x ∧ rust_mod_one x < 1 then
    some (rust_mod_one x * 4 - 4)
  else
    none

lemma two_pow_twelfth_zpow (p : ℤ) :
    ((2 : ℝ) ^ ((1 : ℝ) / 12)) ^ p = (2 : ℝ) ^ ((p : ℝ) / 12) := by
  rw [← Real.rpow_intCast ((2 : ℝ) ^ ((1 : ℝ) / 12)) p,
    ← Real.rpow_mul (by norm_num : (0 : ℝ) ≤ 2)]
  congr 1
  ring

/-- C7: `pitch_compute` implements the equal-tempered semitone scale with
reference 440 Hz: for every integer pitch `p` it returns `440 * 2 ^ (p/12)`,
hence also `pitch_compute 0 * 2 ^ (p/12)`, and pitch 12 doubles pitch 0. -/
theorem pitch_compute_spec (p : ℤ) :
    pitch_compute p = 440 * (2 : ℝ) ^ ((p : ℝ) / 12) ∧
    pitch_compute p = pitch_compute 0 * (2 : ℝ) ^ ((p : ℝ) / 12) ∧
    pitch_compute 12 = 2 * pitch_compute 0 := by
  have h0 : pitch_compute 0 = 440 := by
    simp [pitch_compute, A4]
  have h : ∀ q : ℤ, pitch_compute q = 440 * (2 : ℝ) ^ ((q : ℝ) / 12) := by
    intro q
    rw [pitch_compute, A4, two_pow_twelfth_zpow]
  refine ⟨h p, ?_, ?_⟩
  · rw [h p, h0]
  · rw [h 12, h0]
    norm_num

/-- C8: `envelope` is the fixed trapezoid: 0 outside `[0,1]`, `x * 10` on
`[0, 0.1)`, `(1 - x) * 10` on `(0.9, 1]`, and `1` on `[0.1, 0.9]`; in
particular `envelope 0 = 0`, `envelope 1 = 0`, `envelope (1/2) = 1`,
`envelope (-0.01) = 0` and `envelope 1.01 = 0`. -/
theorem envelope_spec (x : ℝ) :
    ((x < 0 ∨ 1 < x) → envelope x = 0) ∧
    (0 ≤ x → x < 0.1 → envelope x = x * 10) ∧
    (0.9 < x → x ≤ 1 → envelope x = (1 - x) * 10) ∧
    (0.1 ≤ x → x ≤ 0.9 → envelope x = 1) ∧
    envelope 0 = 0 ∧ envelope 1 = 0 ∧ envelope (1 / 2) = 1 ∧
    envelope (-(1 / 100)) = 0 ∧ envelope (101 / 100) = 0 := by
  refine ⟨?_, ?_, ?_, ?_, ?_, ?_, ?_, ?_, ?_⟩
  · intro h
    rw [envelope, if_pos h]
  · intro h0 h1
    rw [envelope, if_neg (by push_neg; constructor <;> linarith), if_pos h1]
  · intro h0 h1
    rw [envelope, if_neg (by push_neg; constructor <;> linarith),
      if_neg (by norm_num at h0 ⊢; linarith), if_pos h0]
  · intro h0 h1
    rw [envelope, if_neg (by push_neg; constructor <;> linarith),
      if_neg (by norm_num at h0 ⊢; linarith),
      if_neg (by norm_num at h1 ⊢; linarith)]
  · norm_num [envelope]
  · norm_num [envelope]
  · norm_num [envelope]
  · norm_num [envelope]
  · norm_num [envelope]

theorem envelope_spec_witness :
    envelope (1 / 20) = (1 / 20) * 10 ∧ envelope (1 / 2) = 1 :=
  ⟨(envelope_spec (1 / 20)).2.1 (by norm_num) (by norm_num),
   ((envelope_spec (1 / 2)).2.2.2.1 (by norm_num) (by norm_num))⟩

lemma rust_mod_one_of_nonneg {x : ℝ} (hx : 0 ≤ x) :
    rust_mod_one x = Int.fract x := by
  rw [rust_mod_one, rust_trunc, if_pos hx, Int.self_sub_floor]

/-- C5 counterexample: Rust `%` keeps the sign of the dividend, so for the
input `-1/2` the reduced phase is `-1/2`, none of the three guards of
`sawtooth` holds, and the `panic!("invalid input")` branch is reached:
`sawtooth` is not total on the reals. -/
theorem sawtooth_total_counterexample : sawtooth (-(1 / 2)) = none := by
  have htr : rust_trunc (-(1 / 2 : ℝ)) = 0 := by
    rw [rust_trunc, if_neg (by norm_num)]
    rw [show ⌈(-(1 / 2) : ℝ)⌉ = 0 from by rw [Int.ceil_eq_iff]; norm_num]
  have hm : rust_mod_one (-(1 / 2 : ℝ)) = -(1 / 2) := by
    rw [rust_mod_one, htr]
    norm_num
  rw [sawtooth, hm]
  norm_num

/-- C5 (amended): for every nonnegative real input the modulo-1 reduction
lands in `[0, 1)`, the panic branch is unreachable and `sawtooth` returns a
value in `[-1, 1]`; moreover `sawtooth 0 = 0`, `sawtooth 0.25 = 1` and
`sawtooth 0.75 = -1`. -/
theorem sawtooth_nonneg_spec (x : ℝ) (hx : 0 ≤ x) :
    (0 ≤ rust_mod_one x ∧ rust_mod_one x < 1) ∧
    (∃ v, sawtooth x = some v ∧ -1 ≤ v ∧ v ≤ 1) ∧
    sawtooth 0 = some 0 ∧ sawtooth (1 / 4) = some 1 ∧
    sawtooth (3 / 4) = some (-1) := by
  have hfr : rust_mod_one x = Int.fract x := rust_mod_one_of_nonneg hx
  have h0 : 0 ≤ rust_mod_one x := by rw [hfr]; exact Int.fract_nonneg x
  have h1 : rust_mod_one x < 1 := by rw [hfr]; exact Int.fract_lt_one x
  have hq : ∀ y : ℝ, 0 ≤ y → rust_mod_one y = y → y < 1 → sawtooth y =
      (if y < 1 / 4 then some (y * 4)
       else if y < 3 / 4 then some (2 - y * 4)
       else some (y * 4 - 4)) := by
    intro y hy0 hym hy1
    rw [sawtooth, hym]
    rcases lt_or_le y (1 / 4) with h | h
    · rw [if_pos ⟨hy0, h⟩, if_pos h]
    · rw [if_neg (fun hc => absurd hc.2 (not_lt.mpr h)), if_neg (not_lt.mpr h)]
      rcases lt_or_le y (3 / 4) with h2 | h2
      · rw [if_pos ⟨h, h2⟩, if_pos h2]
      · rw [if_neg (fun hc => absurd hc.2 (not_lt.mpr h2)),
          if_pos ⟨h2, hy1⟩, if_neg (not_lt.mpr h2)]
  refine ⟨⟨h0, h1⟩, ?_, ?_, ?_, ?_⟩
  · rcases lt_or_le (rust_mod_one x) (1 / 4) with h | h
    · refine ⟨rust_mod_one x * 4, ?_, by linarith, by linarith⟩
      rw [sawtooth, if_pos ⟨h0, h⟩]
    · rcases lt_or_le (rust_mod_one x) (3 / 4) with h2 | h2
      · refine ⟨2 - rust_mod_one x * 4, ?_, by linarith, by linarith⟩
        rw [sawtooth, if_neg (fun hc => absurd hc.2 (not_lt.mpr h)),
          if_pos ⟨h, h2⟩]
      · refine ⟨rust_mod_one x * 4 - 4, ?_, by linarith, by linarith⟩
        rw [sawtooth, if_neg (fun hc => absurd hc.2 (not_lt.mpr h)),
          if_neg (fun hc => absurd hc.2 (not_lt.mpr h2)),
          if_pos ⟨h2, h1⟩]
  · have : rust_mod_one (0 : ℝ) = 0 := by
      rw [rust_mod_one_of_nonneg le_rfl]; norm_num
    rw [hq 0 le_rfl this (by norm_num)]
    norm_num
  · have : rust_mod_one (1 / 4 : ℝ) = 1 / 4 := by
      rw [rust_mod_one_of_nonneg (by norm_num)]
      rw [Int.fract_eq_self]
      norm_num
    rw [hq (1 / 4) (by norm_num) this (by norm_num)]
    norm_num
  · have : rust_mod_one (3 / 4 : ℝ) = 3 / 4 := by
      rw [rust_mod_one_of_nonneg (by norm_num)]
      rw [Int.fract_eq_self]
      norm_num
    rw [hq (3 / 4) (by norm_num) this (by norm_num)]
    norm_num

theorem sawtooth_nonneg_spec_witness :
    ∃ v, sawtooth (1 / 2) = some v ∧ -1 ≤ v ∧ v ≤ 1 :=
  (sawtooth_nonneg_spec (1 / 2) (by norm_num)).2.1

/-- Rust `as u16` on a finite `f64`: truncate toward zero, saturating into
`[0, 65535]` (main.rs line 65 applies it to a nonnegative product). -/
noncomputable def cast_u16 (x : ℝ) : ℕ :=
  if x < 0 then 0 else min 65535 (Int.toNat ⌊x⌋)

/-- Rust `as i16` on a finite `f64`: truncate toward zero, saturating into
`[-32768, 32767]`. -/
noncomputable def cast_i16 (x : ℝ) : ℤ :=
  max (-32768) (min 32767 (rust_trunc x))

/-- The `U16` quantizer closure of `main` (line 65):
`((1.0 + f) * f64::from(u16::MAX / 2)) as u16`, where `u16::MAX / 2` is the
integer division `65535 / 2`. -/
noncomputable def quantize_u16 (f : ℝ) : ℕ :=
  cast_u16 ((1 + f) * ((65535 / 2 : ℕ) : ℝ))

/-- The `I16` quantizer closure of `main` (line 74):
`(f * f64::from(i16::MAX)) as i16`. -/
noncomputable def quantize_i16 (f : ℝ) : ℤ :=
  cast_i16 (f * ((32767 : ℕ) : ℝ))

/-- The `F32` quantizer closure of `main` (line 82): `|f| f as f32`, a
pass-through narrowing (modelled as the identity on the exact value). -/
def quantize_f32 (f : ℝ) : ℝ := f

lemma u16_half_max_cast : (((65535 / 2 : ℕ) : ℝ)) = 32767 := by norm_num

/-- C6: the quantizers implement exactly the specified mappings: unsigned
16-bit is `(1 + f) * (u16::MAX / 2)` truncated, keeping `[-1, 1]` inside
`[0, 65535]` with `0` at the midpoint `32767`; signed 16-bit is
`f * i16::MAX` truncated, with `1` mapping to `32767`; 32-bit float is a
pass-through; the boundary inputs `-1, 0, 1` map accordingly. -/
theorem quantize_spec (f : ℝ) :
    (-1 ≤ f → f ≤ 1 →
      quantize_u16 f = Int.toNat ⌊(1 + f) * 32767⌋ ∧
      quantize_u16 f ≤ 65534 ∧
      quantize_i16 f = rust_trunc (f * 32767) ∧
      -32767 ≤ quantize_i16 f ∧ quantize_i16 f ≤ 32767) ∧
    quantize_u16 (-1) = 0 ∧ quantize_u16 0 = 32767 ∧
    quantize_u16 1 = 65534 ∧
    quantize_i16 (-1) = -32767 ∧ quantize_i16 0 = 0 ∧
    quantize_i16 1 = 32767 ∧
    quantize_f32 f = f := by
  have hu : ∀ r : ℝ, -1 ≤ r → r ≤ 1 →
      quantize_u16 r = Int.toNat ⌊(1 + r) * 32767⌋ ∧
      quantize_u16 r ≤ 65534 := by
    intro r hr1 hr2
    have hnn : (0 : ℝ) ≤ (1 + r) * 32767 := by nlinarith
    have hub : (1 + r) * 32767 ≤ 65534 := by nlinarith
    have hfl : ⌊(1 + r) * 32767⌋ ≤ 65534 := by
      have := Int.floor_le_floor hub
      simpa using this
    have htn : Int.toNat ⌊(1 + r) * 32767⌋ ≤ 65534 := by
      omega
    have : quantize_u16 r = min 65535 (Int.toNat ⌊(1 + r) * 32767⌋) := by
      rw [quantize_u16, u16_half_max_cast, cast_u16, if_neg (not_lt.mpr hnn)]
    rw [this, Nat.min_eq_right (by omega)]
    exact ⟨rfl, htn⟩
  have hi : ∀ r : ℝ, -1 ≤ r → r ≤ 1 →
      quantize_i16 r = rust_trunc (r * 32767) ∧
      -32767 ≤ quantize_i16 r ∧ quantize_i16 r ≤ 32767 := by
    intro r hr1 hr2
    have hlb : (-32767 : ℝ) ≤ r * 32767 := by nlinarith
    have hub : r * 32767 ≤ 32767 := by nlinarith
    have htb : -32767 ≤ rust_trunc (r * 32767) ∧
        rust_trunc (r * 32767) ≤ 32767 := by
      rw [rust_trunc]
      split_ifs with h
      · constructor
        · have : (0 : ℤ) ≤ ⌊r * 32767⌋ := Int.floor_nonneg.mpr h
          omega
        · have := Int.floor_le_floor hub
          simpa using this
      · constructor
        · have h1 := Int.ceil_le_ceil hlb
          have h2 : ⌈(-32767 : ℝ)⌉ = -32767 := by
            rw [show ((-32767 : ℝ)) = ((-32767 : ℤ) : ℝ) from by norm_num,
              Int.ceil_intCast]
          omega
        · have : ⌈r * 32767⌉ ≤ 0 :=
            Int.ceil_le.mpr (by exact_mod_cast le_of_lt (not_le.mp h))
          omega
    have heq : quantize_i16 r = rust_trunc (r * 32767) := by
      rw [quantize_i16]
      norm_num
      rw [cast_i16]
      omega
    rw [heq]
    exact ⟨rfl, htb.1, htb.2⟩
  refine ⟨fun h1 h2 => ⟨(hu f h1 h2).1, (hu f h1 h2).2,
    (hi f h1 h2).1, (hi f h1 h2).2.1, (hi f h1 h2).2.2⟩, ?_, ?_, ?_, ?_, ?_, ?_, rfl⟩
  · rw [quantize_u16, u16_half_max_cast, cast_u16]
    norm_num
  · rw [quantize_u16, u16_half_max_cast, cast_u16]
    norm_num
    omega
  · rw [quantize_u16, u16_half_max_cast, cast_u16]
    norm_num
    omega
  · rw [quantize_i16, cast_i16, rust_trunc]
    norm_num
    rw [show ⌈(-32767 : ℝ)⌉ = -32767 from by
      rw [show ((-32767 : ℝ)) = ((-32767 : ℤ) : ℝ) from by norm_num,
        Int.ceil_intCast]]
    rfl
  · rw [quantize_i16, cast_i16, rust_trunc]
    norm_num
  · rw [quantize_i16, cast_i16, rust_trunc]
    norm_num

theorem quantize_spec_witness :
    quantize_u16 0 ≤ 65534 ∧ -32767 ≤ quantize_i16 0 :=
  ⟨((quantize_spec 0).1 (by norm_num) (by norm_num)).2.1,
   ((quantize_spec 0).1 (by norm_num) (by norm_num)).2.2.2.1⟩

/-- Source type `enum Instruction` (lines 140-143): a note (pitch, length) or a rest
(length), lengths in fractions of a measure. -/
inductive Instruction where
  | note : ℤ → ℚ → Instruction
  | rest : ℚ → Instruction

/-- Source method `Instruction::length` (lines 146-151). -/
def Instruction.length : Instruction → ℚ
  | Instruction.note _ l => l
  | Instruction.rest l => l

/-- Source binding `let measure_time = 60.0 / BPM * 4.0;` (line 199). -/
def measure_time : ℚ := 60 / BPM * 4

/-- Source type `struct Track` (lines 154-158). -/
structure Track where
  instructions : List Instruction
  start_of_instruction : ℚ
  current_instruction : ℕ

/-- Source constructor `Track::new` (lines 161-167). -/
def Track.new (instructions : List Instruction) : Track := ⟨instructions, 0, 0⟩

/-- Source type `struct Source` (lines 170-172). -/
structure Source where
  tracks : List Track

/-- Source function `fn note_gen(t: f64, pitch: i32, length: f64) -> f64`
(lines 224-232).
The waveform generator chosen by the `sin_wave` cargo feature is the
parameter `g`. -/
noncomputable def note_gen (g : ℝ → ℝ) (t : ℝ) (pitch : ℤ) (length : ℝ) : ℝ :=
  g (t * pitch_compute pitch) * envelope (t / length) * (0.96 : ℝ) ^ pitch

/-- Source expression `instructions[*current_instruction].length() * measure_time`
(line 205): duration in seconds of the track's current instruction.  The
default of `getD` is never used: every caller guards the index. -/
def current_length (track : Track) : ℚ :=
  (track.instructions.getD track.current_instruction (Instruction.rest 0)).length
    * measure_time

/-- The advance step of `play_track` (lines 208-209):
`*start_of_instruction += current_length; *current_instruction += 1;`. -/
def advance (track : Track) : Track :=
  ⟨track.instructions, track.start_of_instruction + current_length track,
   track.current_instruction + 1⟩

/-- Lines 216-221 of `play_track`: evaluate the (possibly just advanced)
current instruction. -/
noncomputable def eval_current (g : ℝ → ℝ) (t : ℚ) (track : Track) : ℝ :=
  match track.instructions.getD track.current_instruction (Instruction.rest 0) with
  | Instruction.note pitch length =>
      note_gen g ((t : ℝ) - (track.start_of_instruction : ℝ)) pitch
        ((length * measure_time : ℚ) : ℝ)
  | Instruction.rest _ => 0

/-- Source function `fn play_track(t: f64, track: &mut Track) -> Option<f64>` (lines
194-222), as a state transformer returning (output, updated track). -/
noncomputable def play_track (g : ℝ → ℝ) (t : ℚ) (track : Track) :
    Option ℝ × Track :=
  if track.instructions.length ≤ track.current_instruction then
    (none, track)
  else if track.start_of_instruction + current_length track < t then
    if track.instructions.length ≤ (advance track).current_instruction then
      (none, advance track)
    else
      (some (eval_current g t (advance track)), advance track)
  else
    (some (eval_current g t track), track)

/-- The `match (final_output, output)` accumulator of `play_source`
(lines 182-187). -/
noncomputable def combine_output : Option ℝ → Option ℝ → Option ℝ
  | none, none => none
  | none, some y => some y
  | some x, none => some x
  | some x, some y => some (x + y)

/-- Source function `fn play_source(t: f64, source: &mut Source)` (lines
174-191): every track is evaluated at the same `t` (in order, updating its
cursor) and the outputs are folded with `combine_output` from `None`. -/
noncomputable def play_source (g : ℝ → ℝ) (t : ℚ) (source : Source) :
    Option ℝ × Source :=
  (((source.tracks.map (play_track g t)).map Prod.fst).foldl combine_output none,
   ⟨(source.tracks.map (play_track g t)).map Prod.snd⟩)

lemma combine_fold_none (l : List (Option ℝ)) :
    ∀ acc, l.foldl combine_output acc = none ↔
      acc = none ∧ ∀ o ∈ l, o = none := by
  induction l with
  | nil =>
    intro acc
    simp
  | cons hd tl ih =>
    intro acc
    rw [List.foldl_cons, ih]
    cases acc <;> cases hd <;> simp [combine_output]

lemma combine_fold_sum (l : List (Option ℝ)) :
    ∀ acc s, l.foldl combine_output acc = some s →
      s = (acc.getD 0) + (l.map (fun o => o.getD 0)).sum := by
  induction l with
  | nil =>
    intro acc s h
    cases acc <;> simp_all
  | cons hd tl ih =>
    intro acc s h
    rw [List.foldl_cons] at h
    have h2 := ih _ s h
    cases acc <;> cases hd <;>
      (simp [combine_output] at h2 ⊢; rw [h2]; try ring)

/-- Repeated evaluation of one track at a list of times, threading the
cursor state, as the audio callback does sample by sample. -/
noncomputable def run_track (g : ℝ → ℝ) : List ℚ → Track → List (Option ℝ) × Track
  | [], tr => ([], tr)
  | t :: ts, tr =>
    ((play_track g t tr).1 :: (run_track g ts (play_track g t tr).2).1,
     (run_track g ts (play_track g t tr).2).2)

/-- Total score duration in measures. -/
def total_len (instrs : List Instruction) : ℚ :=
  (instrs.map Instruction.length).sum

/-- Sum of the lengths (in measures) of the first `k` instructions. -/
def prefix_len (instrs : List Instruction) (k : ℕ) : ℚ :=
  ((instrs.map Instruction.length).take k).sum

/-- Cursor-state invariant of a `Track`: `start_of_instruction` is the sum
of the durations (in seconds) of the instructions before the cursor. -/
def Track.Good (tr : Track) : Prop :=
  tr.start_of_instruction =
    prefix_len tr.instructions tr.current_instruction * measure_time

lemma prefix_len_zero (instrs : List Instruction) : prefix_len instrs 0 = 0 := by
  simp [prefix_len]

lemma prefix_len_succ (instrs : List Instruction) (k : ℕ)
    (hk : k < instrs.length) :
    prefix_len instrs (k + 1) =
      prefix_len instrs k + (instrs.getD k (Instruction.rest 0)).length := by
  have hk2 : k < (instrs.map Instruction.length).length := by simpa using hk
  rw [prefix_len, prefix_len, List.sum_take_succ _ _ hk2]
  congr 1
  rw [List.getD_eq_getElem _ _ hk]
  simp

lemma prefix_len_length (instrs : List Instruction) :
    prefix_len instrs instrs.length = total_len instrs := by
  rw [prefix_len, total_len, List.take_of_length_le (by simp)]

lemma play_track_instructions (g : ℝ → ℝ) (t : ℚ) (tr : Track) :
    ((play_track g t tr).2).instructions = tr.instructions := by
  rw [play_track]
  split_ifs <;> rfl

lemma play_track_none_iff (g : ℝ → ℝ) (t : ℚ) (tr : Track) :
    (play_track g t tr).1 = none ↔
      tr.instructions.length ≤ ((play_track g t tr).2).current_instruction := by
  rw [play_track]
  split_ifs with h1 h2 h3
  · simpa using h1
  · simpa [advance] using h3
  · simpa [advance] using h3
  · simpa using h1

lemma play_track_good {tr : Track} (g : ℝ → ℝ) (t : ℚ) (h : tr.Good) :
    ((play_track g t tr).2).Good := by
  have hst : tr.start_of_instruction =
      prefix_len tr.instructions tr.current_instruction * measure_time := h
  have hadv : tr.current_instruction < tr.instructions.length →
      (advance tr).Good := by
    intro h1
    show tr.start_of_instruction + current_length tr =
      prefix_len tr.instructions (tr.current_instruction + 1) * measure_time
    rw [prefix_len_succ _ _ h1, hst, current_length]
    ring
  rw [play_track]
  split_ifs with h1 h2 h3
  · exact h
  · exact hadv (not_le.mp h1)
  · exact hadv (not_le.mp h1)
  · exact h

lemma play_track_none_late {tr : Track} (g : ℝ → ℝ) {t : ℚ} (hg : tr.Good)
    (hcur : tr.current_instruction < tr.instructions.length)
    (hnone : (play_track g t tr).1 = none) :
    total_len tr.instructions * measure_time < t := by
  rw [play_track] at hnone
  rw [if_neg (not_le.mpr hcur)] at hnone
  by_cases h2 : tr.start_of_instruction + current_length tr < t
  · rw [if_pos h2] at hnone
    by_cases h3 : tr.instructions.length ≤ (advance tr).current_instruction
    · have hlen : tr.instructions.length = tr.current_instruction + 1 := by
        have h3b : tr.instructions.length ≤ tr.current_instruction + 1 := by
          simpa [advance] using h3
        omega
      have : tr.start_of_instruction + current_length tr =
          total_len tr.instructions * measure_time := by
        rw [hg, current_length, ← prefix_len_length, hlen,
          prefix_len_succ _ _ hcur]
        ring
      linarith [h2, this.symm.le]
  -- the remaining branches return `some _`, contradicting `hnone`
    · rw [if_neg h3] at hnone
      exact absurd hnone (by simp)
  · rw [if_neg h2] at hnone
    exact absurd hnone (by simp)

lemma run_track_zip_none (g : ℝ → ℝ) :
    ∀ (ts : List ℚ) (tr : Track), List.Pairwise (· ≤ ·) ts → tr.Good →
      (tr.instructions.length ≤ tr.current_instruction →
        ∀ u ∈ ts, total_len tr.instructions * measure_time < u) →
      ∀ p ∈ ts.zip (run_track g ts tr).1, p.2 = none →
        total_len tr.instructions * measure_time < p.1 := by
  intro ts
  induction ts with
  | nil =>
    intro tr _ _ _ p hp
    simp [run_track] at hp
  | cons t ts ih =>
    intro tr hpw hg hexh p hp hpn
    obtain ⟨hle, hpw2⟩ := List.pairwise_cons.mp hpw
    have hhead : (play_track g t tr).1 = none →
        total_len tr.instructions * measure_time < t := by
      intro hn
      by_cases hcur : tr.instructions.length ≤ tr.current_instruction
      · exact hexh hcur t (by simp)
      · exact play_track_none_late g hg (not_le.mp hcur) hn
    rw [run_track] at hp
    rcases List.mem_cons.mp hp with hp1 | hp2
    · rw [hp1] at hpn ⊢
      exact hhead hpn
    · have hinstr := play_track_instructions g t tr
      have := ih (play_track g t tr).2 hpw2 (play_track_good g t hg)
        (by
          intro hex u hu
          rw [hinstr]
          have hex2 : tr.instructions.length ≤
              ((play_track g t tr).2).current_instruction := by
            rw [hinstr] at hex
            exact hex
          have hn : (play_track g t tr).1 = none :=
            (play_track_none_iff g t tr).mpr hex2
          exact lt_of_lt_of_le (hhead hn) (hle u hu))
        p hp2 hpn
      rw [hinstr] at this
      exact this

/-- C2 counterexample: with the monotone evaluation times `[0, 5]` on a
fresh track of total duration `2` measures (`4` seconds at BPM 120), the
first evaluated time strictly greater than the total duration is `5`, yet
the track still answers `some 0` there (the cursor only advances one
instruction per call), so the track does not first report exhaustion at the
first evaluated `t` past its end. -/
theorem track_exhaust_counterexample :
    List.Pairwise (· ≤ ·) [(0 : ℚ), 5] ∧
    total_len [Instruction.rest 1, Instruction.rest 1] * measure_time < 5 ∧
    (run_track (fun _ => (0 : ℝ)) [0, 5]
        (Track.new [Instruction.rest 1, Instruction.rest 1])).1
      = [some 0, some 0] := by
  refine ⟨?_, ?_, ?_⟩
  · simp
  · norm_num [total_len, measure_time, BPM, Instruction.length]
  · norm_num [run_track, play_track, Track.new, current_length, advance,
      eval_current, measure_time, BPM, Instruction.length]

/-- C2 (amended): the cursor advances past the current instruction only
when `t` strictly exceeds `start_of_instruction` plus the instruction's
duration; at `t` up to and including that boundary the instruction still
plays (the call returns a sample and leaves the state unchanged); and along
any monotonically non-decreasing time sequence a fresh track never reports
exhaustion at an evaluated `t ≤ D * measure_time` (`D` the total length in
measures) — exhaustion is only ever reported at a `t` strictly beyond the
total duration.  (The original claim that exhaustion is reported at the
FIRST such `t` fails when one call skips a whole instruction, see the
counterexample.) -/
theorem track_boundary_spec :
    (∀ (g : ℝ → ℝ) (t : ℚ) (tr : Track),
      ((play_track g t tr).2).current_instruction ≠ tr.current_instruction →
      tr.start_of_instruction + current_length tr < t) ∧
    (∀ (g : ℝ → ℝ) (t : ℚ) (tr : Track),
      tr.current_instruction < tr.instructions.length →
      ¬ (tr.start_of_instruction + current_length tr < t) →
      play_track g t tr = (some (eval_current g t tr), tr)) ∧
    (∀ (g : ℝ → ℝ) (ts : List ℚ) (instrs : List Instruction),
      instrs ≠ [] → List.Pairwise (· ≤ ·) ts →
      ∀ p ∈ ts.zip (run_track g ts (Track.new instrs)).1, p.2 = none →
        total_len instrs * measure_time < p.1) := by
  refine ⟨?_, ?_, ?_⟩
  · intro g t tr hne
    rw [play_track] at hne
    split_ifs at hne with h1 h2 h3
    · exact absurd rfl hne
    · exact h2
    · exact h2
    · exact absurd rfl hne
  · intro g t tr hcur hnb
    rw [play_track, if_neg (not_le.mpr hcur), if_neg hnb]
  · intro g ts instrs hne hpw
    have := run_track_zip_none g ts (Track.new instrs) hpw
      (by simp [Track.Good, Track.new, prefix_len_zero])
      (by
        intro hex
        exfalso
        rw [Track.new] at hex
        simp at hex
        exact hne hex)
    simpa [Track.new] using this

theorem track_boundary_spec_witness :
    total_len [Instruction.rest 1] * measure_time < 3 := by
  have h := track_boundary_spec.2.2 (fun _ => (0 : ℝ)) [0, 3]
    [Instruction.rest 1] (by simp) (by decide)
    ((3 : ℚ), (none : Option ℝ))
    (by
      norm_num [run_track, play_track, Track.new, current_length, advance,
        eval_current, measure_time, BPM, Instruction.length, List.zip])
    rfl
  exact h

/-- C3: `play_source` returns the sum of the signals of exactly the tracks
still active at `t` (exhausted tracks contribute nothing), updates every
track at the same `t`, and reports the source exhausted (no signal)
precisely when every owned track reports exhaustion in that same call —
including the zero-track case; with two tracks where the first is exhausted
and the second active, the source's signal is exactly the second track's
solo signal. -/
theorem play_source_sum_spec (g : ℝ → ℝ) (t : ℚ) (src : Source) :
    ((play_source g t src).1 = none ↔
      ∀ tr ∈ src.tracks, (play_track g t tr).1 = none) ∧
    (play_source g t src).2.tracks =
      src.tracks.map (fun tr => (play_track g t tr).2) ∧
    (∀ s, (play_source g t src).1 = some s →
      s = (src.tracks.map (fun tr => ((play_track g t tr).1).getD 0)).sum) ∧
    (∀ a b sb, src.tracks = [a, b] → (play_track g t a).1 = none →
      (play_track g t b).1 = some sb → (play_source g t src).1 = some sb) := by
  refine ⟨?_, ?_, ?_, ?_⟩
  · rw [play_source]
    rw [combine_fold_none]
    simp
  · rw [play_source]
    simp
  · intro s hs
    rw [play_source] at hs
    have := combine_fold_sum _ none s hs
    simpa using this
  · intro a b sb hab ha hb
    rw [play_source, hab]
    simp [ha, hb, combine_output]

theorem play_source_sum_spec_witness :
    (play_source (fun x => x) 0
      ⟨[⟨[Instruction.rest 1], 0, 1⟩, ⟨[Instruction.rest 1], 0, 0⟩]⟩).1
      = some 0 := by
  have h := (play_source_sum_spec (fun x => x) 0
    ⟨[⟨[Instruction.rest 1], 0, 1⟩, ⟨[Instruction.rest 1], 0, 0⟩]⟩).2.2.2
    ⟨[Instruction.rest 1], 0, 1⟩ ⟨[Instruction.rest 1], 0, 0⟩ 0 rfl
    (by norm_num [play_track])
    (by norm_num [play_track, current_length, eval_current, measure_time,
      BPM, Instruction.length])
  exact h

/-- The render state owned by the callback closure of `main` (lines 26-33
and `struct StaticData`, lines 93-99): the sample counter, the live source
and the sticky termination flag. -/
structure RenderState where
  counter : ℕ
  source : Source
  terminating : Bool

/-- Session start, `main` lines 26 and 33: the session starts with `counter = 0` and
`terminating = false`. -/
def init_state (source : Source) : RenderState := ⟨0, source, false⟩

/-- One iteration of the `fill_buffer` loop, value part (lines 119-126):
`t = counter / sample_rate`; the source's signal scaled by `VOLUME`, or
`0.0` if the source is exhausted. -/
noncomputable def frame_val (g : ℝ → ℝ) (sample_rate : ℕ) (st : RenderState) : ℝ :=
  match (play_source g ((st.counter : ℚ) / (sample_rate : ℚ)) st.source).1 with
  | some signal => signal * VOLUME
  | none => 0

/-- One iteration of the `fill_buffer` loop, state part (lines 119-132):
the source advances, `terminating` is raised on exhaustion (and otherwise
kept), and the counter increments by exactly 1. -/
noncomputable def frame_step (g : ℝ → ℝ) (sample_rate : ℕ) (st : RenderState) :
    RenderState :=
  ⟨st.counter + 1,
   (play_source g ((st.counter : ℚ) / (sample_rate : ℚ)) st.source).2,
   match (play_source g ((st.counter : ℚ) / (sample_rate : ℚ)) st.source).1 with
   | some _ => st.terminating
   | none => true⟩

/-- The `for i in 0 .. (buffer.len() / channel_count)` loop of
`fill_buffer` (lines 118-133): each frame appends `channel_count` copies of
the quantized frame value and steps the render state. -/
noncomputable def fill_frames {T : Type} (g : ℝ → ℝ)
    (sample_rate channel_count : ℕ) (closure : ℝ → T) :
    ℕ → RenderState → List T × RenderState
  | 0, st => ([], st)
  | n + 1, st =>
    (List.replicate channel_count (closure (frame_val g sample_rate st)) ++
      (fill_frames g sample_rate channel_count closure n
        (frame_step g sample_rate st)).1,
     (fill_frames g sample_rate channel_count closure n
       (frame_step g sample_rate st)).2)

/-- Source function `fn fill_buffer` (lines 103-134).  The
`assert!(buffer.len() % channel_count == 0)` is the `none` branch; the
produced sample list and final render state are returned. -/
noncomputable def fill_buffer {T : Type} (g : ℝ → ℝ)
    (sample_rate channel_count : ℕ) (closure : ℝ → T) (buffer_len : ℕ)
    (st : RenderState) : Option (List T × RenderState) :=
  if buffer_len % channel_count = 0 then
    some (fill_frames g sample_rate channel_count closure
      (buffer_len / channel_count) st)
  else
    none

lemma fill_frames_eq {T : Type} (g : ℝ → ℝ) (sr cc : ℕ) (q : ℝ → T) :
    ∀ (n : ℕ) (st : RenderState),
      fill_frames g sr cc q n st =
        (((List.range n).map fun k =>
            List.replicate cc (q (frame_val g sr ((frame_step g sr)^[k] st)))).flatten,
         (frame_step g sr)^[n] st) := by
  intro n
  induction n with
  | zero =>
    intro st
    simp [fill_frames]
  | succ n ih =>
    intro st
    rw [fill_frames, ih (frame_step g sr st), List.range_succ_eq_map,
      List.map_cons, List.map_map, List.flatten_cons]
    simp only [Function.comp_def, Function.iterate_succ_apply,
      Function.iterate_zero_apply]

lemma join_replicate_length {T : Type} (cc n : ℕ) (v : ℕ → T) :
    (((List.range n).map fun k => List.replicate cc (v k)).flatten).length
      = n * cc := by
  induction n with
  | zero => simp
  | succ n ih =>
    rw [List.range_succ, List.map_append, List.flatten_append]
    simp [ih, Nat.succ_mul]

lemma frame_step_iterate_counter (g : ℝ → ℝ) (sr : ℕ) :
    ∀ (k : ℕ) (st : RenderState),
      ((frame_step g sr)^[k] st).counter = st.counter + k := by
  intro k
  induction k with
  | zero =>
    intro st
    simp
  | succ k ih =>
    intro st
    rw [Function.iterate_succ_apply, ih]
    simp [frame_step]
    omega

/-- C1: on a buffer whose length is an exact multiple of the channel count
(otherwise the assertion aborts: `fill_buffer` is `none` exactly then), one
call writes the buffer frame by frame in order: frame `k` carries the
quantized value of the source at `t = counter / sample_rate` scaled by
`VOLUME` (or `0.0` once exhausted), duplicated across all `channel_count`
slots, every slot of the buffer is written (the output has exactly
`buffer_len` samples), and the counter advances by 1 per frame. -/
theorem fill_buffer_frames_spec {T : Type} (g : ℝ → ℝ) (sr cc : ℕ)
    (q : ℝ → T) (len : ℕ) (st : RenderState) (_hcc : 0 < cc)
    (hlen : len % cc = 0) :
    fill_buffer g sr cc q len st =
      some (((List.range (len / cc)).map fun k =>
          List.replicate cc (q (frame_val g sr ((frame_step g sr)^[k] st)))).flatten,
        (frame_step g sr)^[len / cc] st) ∧
    (((List.range (len / cc)).map fun k =>
        List.replicate cc (q (frame_val g sr ((frame_step g sr)^[k] st)))).flatten).length
      = len ∧
    ((frame_step g sr)^[len / cc] st).counter = st.counter + len / cc := by
  refine ⟨?_, ?_, ?_⟩
  · rw [fill_buffer, if_pos hlen, fill_frames_eq]
  · rw [join_replicate_length]
    exact Nat.div_mul_cancel (Nat.dvd_of_mod_eq_zero hlen)
  · exact frame_step_iterate_counter g sr _ st

theorem fill_buffer_frames_spec_witness :
    fill_buffer (fun _ => (0 : ℝ)) 1 2 quantize_f32 2 (init_state ⟨[]⟩) =
      some ([0, 0], ⟨1, ⟨[]⟩, true⟩) := by
  have hps : ∀ t : ℚ, play_source (fun _ => (0 : ℝ)) t ⟨[]⟩ = (none, ⟨[]⟩) :=
    fun _ => rfl
  have hstep : frame_step (fun _ => (0 : ℝ)) 1 (init_state ⟨[]⟩) =
      ⟨1, ⟨[]⟩, true⟩ := by
    rw [frame_step, init_state, hps]
  have hval : frame_val (fun _ => (0 : ℝ)) 1 (init_state ⟨[]⟩) = 0 := by
    rw [frame_val, init_state, hps]
  have h := (fill_buffer_frames_spec (fun _ => (0 : ℝ)) 1 2 quantize_f32 2
    (init_state ⟨[]⟩) (by norm_num) (by norm_num)).1
  rw [h, show (2 : ℕ) / 2 = 1 from rfl, show List.range 1 = [0] from rfl]
  simp [hval, hstep, quantize_f32, Function.iterate_one]

/-- A source is exhausted when every owned track's cursor has reached the
end of its instruction list. -/
def Source.Exhausted (src : Source) : Prop :=
  ∀ tr ∈ src.tracks, tr.instructions.length ≤ tr.current_instruction

lemma play_track_of_exhausted (g : ℝ → ℝ) (t : ℚ) {tr : Track}
    (h : tr.instructions.length ≤ tr.current_instruction) :
    play_track g t tr = (none, tr) := by
  rw [play_track, if_pos h]

lemma play_source_of_exhausted (g : ℝ → ℝ) (t : ℚ) {src : Source}
    (h : src.Exhausted) : play_source g t src = (none, src) := by
  rw [play_source]
  have hmap : src.tracks.map (play_track g t) =
      src.tracks.map (fun tr => ((none : Option ℝ), tr)) :=
    List.map_congr_left (fun tr htr => play_track_of_exhausted g t (h tr htr))
  rw [hmap]
  refine Prod.ext ?_ ?_
  · rw [List.map_map, combine_fold_none]
    refine ⟨rfl, ?_⟩
    intro o ho
    simp at ho
    exact ho.2
  · simp

lemma play_source_none_exhausted (g : ℝ → ℝ) (t : ℚ) (src : Source)
    (h : (play_source g t src).1 = none) :
    ((play_source g t src).2).Exhausted := by
  intro tr htr
  rw [play_source] at h htr
  rw [combine_fold_none] at h
  obtain ⟨-, hall⟩ := h
  simp only [List.map_map, List.mem_map, Function.comp_apply] at htr
  obtain ⟨tr0, htr0, rfl⟩ := htr
  have hn : (play_track g t tr0).1 = none := by
    apply hall
    simp only [List.map_map, List.mem_map, Function.comp_apply]
    exact ⟨tr0, htr0, rfl⟩
  have hc := (play_track_none_iff g t tr0).mp hn
  rw [play_track_instructions]
  exact hc

lemma frame_step_term (g : ℝ → ℝ) (sr : ℕ) (st : RenderState) :
    (frame_step g sr st).terminating =
      (st.terminating ||
        decide ((play_source g ((st.counter : ℚ) / (sr : ℚ)) st.source).1
          = none)) := by
  rw [frame_step]
  rcases h : (play_source g ((st.counter : ℚ) / (sr : ℚ)) st.source).1 with _ | s
  · simp [h]
  · simp [h]

lemma iterate_term_iff (g : ℝ → ℝ) (sr : ℕ) :
    ∀ (n : ℕ) (st : RenderState),
      (((frame_step g sr)^[n] st).terminating = true) ↔
        (st.terminating = true ∨ ∃ k, k < n ∧
          (play_source g ((((frame_step g sr)^[k] st).counter : ℚ) / (sr : ℚ))
            (((frame_step g sr)^[k] st).source)).1 = none) := by
  intro n
  induction n with
  | zero =>
    intro st
    simp
  | succ n ih =>
    intro st
    rw [Function.iterate_succ_apply, ih (frame_step g sr st)]
    constructor
    · rintro (hterm | ⟨k, hk, hnone⟩)
      · rw [frame_step_term] at hterm
        rcases (by simpa using hterm : st.terminating = true ∨
            (play_source g ((st.counter : ℚ) / (sr : ℚ)) st.source).1 = none)
            with h | h
        · exact Or.inl h
        · exact Or.inr ⟨0, by omega, by simpa using h⟩
      · refine Or.inr ⟨k + 1, by omega, ?_⟩
        rw [Function.iterate_succ_apply]
        exact hnone
    · rintro (hterm | ⟨k, hk, hnone⟩)
      · left
        rw [frame_step_term, hterm]
        simp
      · cases k with
        | zero =>
          left
          rw [frame_step_term]
          simp only [Function.iterate_zero_apply] at hnone
          rw [hnone]
          simp
        | succ k2 =>
          right
          refine ⟨k2, by omega, ?_⟩
          rw [← Function.iterate_succ_apply]
          exact hnone

lemma fill_frames_of_exhausted {T : Type} (g : ℝ → ℝ) (sr cc : ℕ)
    (q : ℝ → T) :
    ∀ (n : ℕ) (st : RenderState), st.source.Exhausted →
      fill_frames g sr cc q n st =
        (List.replicate (cc * n) (q 0),
         ⟨st.counter + n, st.source, st.terminating || decide (0 < n)⟩) := by
  intro n
  induction n with
  | zero =>
    intro st h
    simp [fill_frames]
  | succ n ih =>
    intro st h
    have hps := play_source_of_exhausted g ((st.counter : ℚ) / (sr : ℚ)) h
    have hval : frame_val g sr st = 0 := by
      rw [frame_val, hps]
    have hstep : frame_step g sr st = ⟨st.counter + 1, st.source, true⟩ := by
      rw [frame_step, hps]
    rw [fill_frames, hval, hstep, ih ⟨st.counter + 1, st.source, true⟩ h]
    refine Prod.ext ?_ ?_
    · show List.replicate cc (q 0) ++ List.replicate (cc * n) (q 0) =
        List.replicate (cc * (n + 1)) (q 0)
      rw [← List.replicate_add]
      congr 1
      ring
    · show (⟨st.counter + 1 + n, st.source, true || decide (0 < n)⟩ : RenderState)
        = ⟨st.counter + (n + 1), st.source, st.terminating || decide (0 < n + 1)⟩
      congr 1
      · omega
      · simp

/-- C4: the termination flag starts false at session start, a `fill_buffer`
call never resets it once true, its final value is true precisely when it
was already true or some frame of the call saw the source exhausted; a
frame that sees exhaustion leaves the source in a permanently exhausted
state, and from an exhausted state every frame of the current and of every
later call renders the quantized `0.0` value in every channel slot while
keeping the flag raised. -/
theorem terminating_spec {T : Type} (g : ℝ → ℝ) (sr cc : ℕ) (q : ℝ → T) :
    (∀ src, (init_state src).terminating = false) ∧
    (∀ (len : ℕ) (st : RenderState) (out : List T) (st2 : RenderState),
      st.terminating = true →
      fill_buffer g sr cc q len st = some (out, st2) →
      st2.terminating = true) ∧
    (∀ (n : ℕ) (st : RenderState),
      ((fill_frames g sr cc q n st).2).terminating = true ↔
        (st.terminating = true ∨ ∃ k, k < n ∧
          (play_source g ((((frame_step g sr)^[k] st).counter : ℚ) / (sr : ℚ))
            (((frame_step g sr)^[k] st).source)).1 = none)) ∧
    (∀ (t : ℚ) (src : Source), (play_source g t src).1 = none →
      ((play_source g t src).2).Exhausted) ∧
    (∀ (n : ℕ) (st : RenderState), st.source.Exhausted →
      fill_frames g sr cc q n st =
        (List.replicate (cc * n) (q 0),
         ⟨st.counter + n, st.source, st.terminating || decide (0 < n)⟩)) := by
  refine ⟨fun _ => rfl, ?_, ?_, play_source_none_exhausted g,
    fill_frames_of_exhausted g sr cc q⟩
  · intro len st out st2 hterm hfb
    rw [fill_buffer] at hfb
    by_cases hmod : len % cc = 0
    · rw [if_pos hmod] at hfb
      have h3 := Option.some_inj.mp hfb
      have h2 : st2 = (fill_frames g sr cc q (len / cc) st).2 := by
        rw [h3]
      rw [h2, fill_frames_eq]
      show (((frame_step g sr)^[len / cc] st).terminating = true)
      rw [iterate_term_iff]
      exact Or.inl hterm
    · rw [if_neg hmod] at hfb
      cases hfb
  · intro n st
    rw [fill_frames_eq]
    exact iterate_term_iff g sr n st

theorem terminating_spec_witness :
    fill_frames (fun _ => (0 : ℝ)) 1 2 quantize_f32 1
        ⟨5, ⟨[⟨[Instruction.rest 1], 0, 1⟩]⟩, false⟩ =
      (List.replicate 2 (0 : ℝ), ⟨6, ⟨[⟨[Instruction.rest 1], 0, 1⟩]⟩, true⟩) := by
  have h := (terminating_spec (fun _ => (0 : ℝ)) 1 2 quantize_f32).2.2.2.2 1
    ⟨5, ⟨[⟨[Instruction.rest 1], 0, 1⟩]⟩, false⟩
    (by
      intro tr htr
      simp at htr
      rw [htr]
      simp)
  rw [h]
  norm_num [quantize_f32]

/-- C10: every `fill_buffer` call that passes the length assertion advances
the 64-bit sample counter by exactly `buffer_len / channel_count` — one per
frame, also for frames rendered as silence after exhaustion, since the
increment is unconditional — the counter never decreases, and with a
positive sample rate the per-frame time `t = counter / sample_rate` is
strictly increasing across frames. -/
theorem counter_advance_spec {T : Type} (g : ℝ → ℝ) (sr cc : ℕ)
    (q : ℝ → T) (len : ℕ) (st : RenderState) (_hcc : 0 < cc)
    (hlen : len % cc = 0) (hsr : 0 < sr) :
    (∃ out, fill_buffer g sr cc q len st =
      some (out, (frame_step g sr)^[len / cc] st)) ∧
    ((frame_step g sr)^[len / cc] st).counter = st.counter + len / cc ∧
    st.counter ≤ ((frame_step g sr)^[len / cc] st).counter ∧
    (∀ k1 k2 : ℕ, k1 < k2 →
      ((((frame_step g sr)^[k1] st).counter : ℚ) / (sr : ℚ)) <
        ((((frame_step g sr)^[k2] st).counter : ℚ) / (sr : ℚ))) := by
  have hcount := frame_step_iterate_counter g sr
  refine ⟨?_, hcount _ st, ?_, ?_⟩
  · refine ⟨(fill_frames g sr cc q (len / cc) st).1, ?_⟩
    rw [fill_buffer, if_pos hlen, fill_frames_eq]
  · rw [hcount]
    exact Nat.le_add_right _ _
  · intro k1 k2 hk
    rw [hcount, hcount]
    have hsr2 : (0 : ℚ) < (sr : ℚ) := by exact_mod_cast hsr
    rw [div_lt_div_iff_of_pos_right hsr2]
    exact_mod_cast Nat.add_lt_add_left hk st.counter

theorem counter_advance_spec_witness :
    ((frame_step (fun _ => (0 : ℝ)) 1)^[4 / 2] (init_state ⟨[]⟩)).counter
      = (init_state ⟨[]⟩).counter + 4 / 2 :=
  (counter_advance_spec (fun _ => (0 : ℝ)) 1 2 quantize_f32 4
    (init_state ⟨[]⟩) (by norm_num) (by norm_num) (by norm_num)).2.1

end Megalo
